import Mathlib

set_option autoImplicit false

namespace AkazeInliers

/-!
Shallow embedding of `src/akaze_inliers.cpp`, the AKAZE two-image matching
driver: the NNDR candidate matcher, the RANSAC entry precondition, the inlier
serializer `save_inliers`, and the command-line walker `parse_input_options`.
Floating-point pixel coordinates and descriptor distances are modelled as
rationals; file-system effects are modelled by explicit parameters.
-/

universe u v

variable {α : Type u} {β : Type v}

/-! ### NNDR candidate matcher

`matches2points_nndr` and the descriptor distances live in the library part of
the repository (`lib/utils`), not under `src/`; they are modelled from the
spec (§4.1): for each query descriptor find the nearest and second-nearest
neighbours (at distinct indices) and accept the best match iff
`d1 < ratio * d2`, preserving the iteration order of the query set. -/

/-- Modelled from the spec: index and value of the smallest distance in a
distance list (the best match found by the 2-nearest-neighbour search);
ties resolve to the earliest index. -/
def idxMin : List ℚ → Option (Nat × ℚ)
  | [] => none
  | d :: ds =>
    match idxMin ds with
    | none => some (0, d)
    | some (j, m) => if d ≤ m then some (0, d) else some (j + 1, m)

/-- Modelled from the spec: smallest element of a distance list. -/
def listMin : List ℚ → Option ℚ
  | [] => none
  | d :: ds =>
    match listMin ds with
    | none => some d
    | some m => some (min d m)

/-- Modelled from the spec: smallest distance at an index distinct from `j`
(the second-nearest neighbour's distance). -/
def minExcept (ds : List ℚ) (j : Nat) : Option ℚ :=
  listMin ((ds.enum.filter (fun p => p.1 ≠ j)).map Prod.snd)

/-- Modelled from the spec: the 2-nearest-neighbour query for one descriptor
`a` against the descriptor set `B` under the metric `dist`: returns
`(j1, d1, d2)` with `d1` the nearest distance attained at index `j1` and `d2`
the second-nearest distance, attained at an index distinct from `j1`; `none`
when `B` has fewer than two descriptors (spec §4.1: such queries are
skipped, not an error). -/
def best2 (dist : α → β → ℚ) (a : α) (B : List β) : Option (Nat × ℚ × ℚ) :=
  let ds := B.map (dist a)
  match idxMin ds with
  | none => none
  | some (j1, d1) =>
    match minExcept ds j1 with
    | none => none
    | some d2 => some (j1, d1, d2)

/-- Modelled from the spec: the per-query loop of the NNDR matcher, carrying
the index of the current query descriptor. -/
def nndr_go (dist : α → β → ℚ) (B : List β) (ratio : ℚ) : Nat → List α → List (Nat × Nat)
  | _, [] => []
  | i, a :: as =>
    match best2 dist a B with
    | none => nndr_go dist B ratio (i + 1) as
    | some (j1, d1, d2) =>
      if d1 < ratio * d2 then (i, j1) :: nndr_go dist B ratio (i + 1) as
      else nndr_go dist B ratio (i + 1) as

/-- Modelled from the spec: `matches2points_nndr` (called by `main` at
line 122) — the NNDR candidate matcher, returning the accepted
`(query index, best-match index)` pairs in query order. -/
def matches2points_nndr (dist : α → β → ℚ) (A : List α) (B : List β) (ratio : ℚ) :
    List (Nat × Nat) :=
  nndr_go dist B ratio 0 A

/-- One step of the NNDR matcher, phrased by query index: the candidate (if
any) produced for query index `i`. -/
def nndr_step (dist : α → β → ℚ) (A : List α) (B : List β) (ratio : ℚ) (i : Nat) :
    Option (Nat × Nat) :=
  match A[i]? with
  | none => none
  | some a =>
    match best2 dist a B with
    | none => none
    | some (j1, d1, d2) => if d1 < ratio * d2 then some (i, j1) else none

/-- Number of candidates the NNDR matcher accepts. -/
def nndr_count (dist : α → β → ℚ) (A : List α) (B : List β) (ratio : ℚ) : Nat :=
  (matches2points_nndr dist A B ratio).length

theorem idxMin_ne_none (d : ℚ) (ds : List ℚ) : idxMin (d :: ds) ≠ none := by
  unfold idxMin
  split
  · simp
  · split <;> simp

theorem listMin_ne_none (d : ℚ) (ds : List ℚ) : listMin (d :: ds) ≠ none := by
  unfold listMin
  split <;> simp

theorem idxMin_getElem : ∀ {ds : List ℚ} {j : Nat} {m : ℚ},
    idxMin ds = some (j, m) → ds[j]? = some m := by
  intro ds
  induction ds with
  | nil => intro j m h; simp [idxMin] at h
  | cons d ds ih =>
    intro j m h
    unfold idxMin at h
    split at h
    · simp only [Option.some.injEq, Prod.mk.injEq] at h
      obtain ⟨rfl, rfl⟩ := h
      simp
    · rename_i j' m' hds
      split at h <;>
        (simp only [Option.some.injEq, Prod.mk.injEq] at h; obtain ⟨rfl, rfl⟩ := h)
      · simp
      · simpa using ih hds

theorem idxMin_le : ∀ {ds : List ℚ} {j : Nat} {m : ℚ},
    idxMin ds = some (j, m) → ∀ x ∈ ds, m ≤ x := by
  intro ds
  induction ds with
  | nil => intro j m h; simp [idxMin] at h
  | cons d ds ih =>
    intro j m h x hx
    unfold idxMin at h
    split at h
    · rename_i hds
      simp only [Option.some.injEq, Prod.mk.injEq] at h
      obtain ⟨rfl, rfl⟩ := h
      rcases List.mem_cons.mp hx with rfl | hx'
      · exact le_refl x
      · cases ds with
        | nil => simp at hx'
        | cons e es => exact absurd hds (idxMin_ne_none e es)
    · rename_i j' m' hds
      split at h <;>
        (rename_i hle ;
         simp only [Option.some.injEq, Prod.mk.injEq] at h ;
         obtain ⟨rfl, rfl⟩ := h)
      · rcases List.mem_cons.mp hx with rfl | hx'
        · exact le_refl x
        · exact le_trans hle (ih hds x hx')
      · rcases List.mem_cons.mp hx with rfl | hx'
        · exact le_of_not_le hle
        · exact ih hds x hx'

theorem listMin_mem : ∀ {ds : List ℚ} {m : ℚ}, listMin ds = some m → m ∈ ds := by
  intro ds
  induction ds with
  | nil => intro m h; simp [listMin] at h
  | cons d ds ih =>
    intro m h
    unfold listMin at h
    split at h
    · simp only [Option.some.injEq] at h
      subst h
      exact List.mem_cons_self _ _
    · rename_i m' hds
      simp only [Option.some.injEq] at h
      subst h
      rcases le_total d m' with hdm | hdm
      · rw [min_eq_left hdm]; exact List.mem_cons_self _ _
      · rw [min_eq_right hdm]; exact List.mem_cons_of_mem _ (ih hds)

theorem listMin_le : ∀ {ds : List ℚ} {m : ℚ}, listMin ds = some m → ∀ x ∈ ds, m ≤ x := by
  intro ds
  induction ds with
  | nil => intro m h; simp [listMin] at h
  | cons d ds ih =>
    intro m h x hx
    unfold listMin at h
    split at h
    · rename_i hds
      simp only [Option.some.injEq] at h
      subst h
      rcases List.mem_cons.mp hx with rfl | hx'
      · exact le_refl x
      · cases ds with
        | nil => simp at hx'
        | cons e es => exact absurd hds (listMin_ne_none e es)
    · rename_i m' hds
      simp only [Option.some.injEq] at h
      subst h
      rcases List.mem_cons.mp hx with rfl | hx'
      · exact min_le_left _ _
      · exact le_trans (min_le_right _ _) (ih hds x hx')

theorem getElem?_some_mem {γ : Type u} {l : List γ} {t : Nat} {x : γ}
    (h : l[t]? = some x) : x ∈ l := by
  obtain ⟨hlt, rfl⟩ := List.getElem?_eq_some.mp h
  exact List.getElem_mem hlt

theorem minExcept_mem {ds : List ℚ} {j : Nat} {d : ℚ} (h : minExcept ds j = some d) :
    ∃ t, t ≠ j ∧ ds[t]? = some d := by
  have hmem := listMin_mem h
  simp only [List.mem_map, List.mem_filter] at hmem
  obtain ⟨⟨t, x⟩, ⟨henum, ht⟩, rfl⟩ := hmem
  exact ⟨t, by simpa using ht, List.mk_mem_enum_iff_getElem?.mp henum⟩

theorem minExcept_le {ds : List ℚ} {j : Nat} {d : ℚ} (h : minExcept ds j = some d) :
    ∀ (t : Nat) (x : ℚ), t ≠ j → ds[t]? = some x → d ≤ x := by
  intro t x ht hx
  refine listMin_le h x ?_
  simp only [List.mem_map, List.mem_filter]
  exact ⟨(t, x), ⟨List.mk_mem_enum_iff_getElem?.mpr hx, by simpa using ht⟩, rfl⟩

theorem best2_spec {dist : α → β → ℚ} {a : α} {B : List β} {j1 : Nat} {d1 d2 : ℚ}
    (h : best2 dist a B = some (j1, d1, d2)) :
    (∃ b, B[j1]? = some b ∧ dist a b = d1) ∧
    (∀ (t : Nat) (b : β), B[t]? = some b → d1 ≤ dist a b) ∧
    (∃ j2 b, j2 ≠ j1 ∧ B[j2]? = some b ∧ dist a b = d2) ∧
    (∀ (t : Nat) (b : β), t ≠ j1 → B[t]? = some b → d2 ≤ dist a b) := by
  simp only [best2] at h
  split at h
  · exact absurd h (by simp)
  · rename_i j1' d1' hidx
    split at h
    · exact absurd h (by simp)
    · rename_i d2' hmin
      simp only [Option.some.injEq, Prod.mk.injEq] at h
      obtain ⟨rfl, rfl, rfl⟩ := h
      refine ⟨?_, ?_, ?_, ?_⟩
      · have := idxMin_getElem hidx
        rw [List.getElem?_map] at this
        obtain ⟨b, hb, hdb⟩ := Option.map_eq_some'.mp this
        exact ⟨b, hb, hdb⟩
      · intro t b hb
        refine idxMin_le hidx _ ?_
        exact List.mem_map.mpr ⟨b, getElem?_some_mem hb, rfl⟩
      · obtain ⟨t, ht, hx⟩ := minExcept_mem hmin
        rw [List.getElem?_map] at hx
        obtain ⟨b, hb, hdb⟩ := Option.map_eq_some'.mp hx
        exact ⟨t, b, ht, hb, hdb⟩
      · intro t b ht hb
        refine minExcept_le hmin t _ ht ?_
        rw [List.getElem?_map, hb]
        rfl

/-- The `filterMap`-over-`range` normal form of the NNDR loop. -/
theorem nndr_go_eq {dist : α → β → ℚ} {B : List β} {ratio : ℚ} :
    ∀ (as : List α) (k : Nat),
      nndr_go dist B ratio k as = (List.range as.length).filterMap (fun t =>
        match as[t]? with
        | none => none
        | some a =>
          match best2 dist a B with
          | none => none
          | some (j1, d1, d2) => if d1 < ratio * d2 then some (k + t, j1) else none) := by
  intro as
  induction as with
  | nil => intro k; simp [nndr_go]
  | cons a as ih =>
    intro k
    rw [List.length_cons, List.range_succ_eq_map, List.filterMap_cons, List.filterMap_map]
    have htail : List.filterMap ((fun t =>
        match (a :: as)[t]? with
        | none => none
        | some a' =>
          match best2 dist a' B with
          | none => none
          | some (j1, d1, d2) => if d1 < ratio * d2 then some (k + t, j1) else none) ∘ Nat.succ)
          (List.range as.length) = nndr_go dist B ratio (k + 1) as := by
      rw [ih (k + 1)]
      apply List.filterMap_congr
      intro t ht
      simp only [Function.comp_apply, Nat.succ_eq_add_one, List.getElem?_cons_succ]
      have hkt : k + (t + 1) = k + 1 + t := by omega
      rw [hkt]
    rw [htail]
    simp only [List.getElem?_cons_zero, nndr_go]
    cases hb : best2 dist a B with
    | none => simp
    | some v =>
      obtain ⟨j1, d1, d2⟩ := v
      by_cases hacc : d1 < ratio * d2
      · simp [hacc]
      · simp [hacc]

theorem nndr_go_fst_lower {dist : α → β → ℚ} {B : List β} {ratio : ℚ} :
    ∀ (as : List α) (k : Nat) (p : Nat × Nat), p ∈ nndr_go dist B ratio k as → k ≤ p.1 := by
  intro as
  induction as with
  | nil => intro k p hp; simp [nndr_go] at hp
  | cons a as ih =>
    intro k p hp
    simp only [nndr_go] at hp
    split at hp
    · exact le_trans (Nat.le_succ k) (ih (k + 1) p hp)
    · split at hp
      · rcases List.mem_cons.mp hp with rfl | hp'
        · exact le_refl k
        · exact le_trans (Nat.le_succ k) (ih (k + 1) p hp')
      · exact le_trans (Nat.le_succ k) (ih (k + 1) p hp)

theorem nndr_go_pairwise {dist : α → β → ℚ} {B : List β} {ratio : ℚ} :
    ∀ (as : List α) (k : Nat),
      List.Pairwise (· < ·) (List.map Prod.fst (nndr_go dist B ratio k as)) := by
  intro as
  induction as with
  | nil => intro k; simp [nndr_go]
  | cons a as ih =>
    intro k
    simp only [nndr_go]
    split
    · exact ih (k + 1)
    · split
      · rw [List.map_cons, List.pairwise_cons]
        refine ⟨?_, ih (k + 1)⟩
        intro x hx
        obtain ⟨p, hp, rfl⟩ := List.mem_map.mp hx
        exact lt_of_lt_of_le (Nat.lt_succ_self k) (nndr_go_fst_lower as (k + 1) p hp)
      · exact ih (k + 1)

theorem matches2points_eq_filterMap (dist : α → β → ℚ) (A : List α) (B : List β) (ratio : ℚ) :
    matches2points_nndr dist A B ratio =
      (List.range A.length).filterMap (nndr_step dist A B ratio) := by
  unfold matches2points_nndr
  rw [nndr_go_eq A 0]
  apply List.filterMap_congr
  intro t ht
  unfold nndr_step
  cases hA : A[t]? with
  | none => rfl
  | some a =>
    cases hb : best2 dist a B with
    | none => simp [hb]
    | some v =>
      obtain ⟨j1, d1, d2⟩ := v
      by_cases hacc : d1 < ratio * d2 <;> simp [hb, hacc]

/-- Modelled from the spec: squared Euclidean distance between two
floating-point descriptors (`BruteForce` matcher metric). -/
def l2sq (x y : List ℚ) : ℚ :=
  ((x.zip y).map (fun p => (p.1 - p.2) ^ 2)).sum

/-- Modelled from the spec: Hamming distance (bit popcount of the
disagreement) between two binary descriptors. -/
def hammingDist (x y : List Bool) : ℚ :=
  (((x.zip y).filter (fun p => p.1 ≠ p.2)).length : ℚ)

theorem l2sq_nonneg (x y : List ℚ) : 0 ≤ l2sq x y := by
  unfold l2sq
  apply List.sum_nonneg
  intro q hq
  obtain ⟨p, _, rfl⟩ := List.mem_map.mp hq
  positivity

theorem hammingDist_nonneg (x y : List Bool) : 0 ≤ hammingDist x y := by
  unfold hammingDist
  positivity

/-- C1: the NNDR candidate matcher accepts the best match `(i, j1)` for a
query descriptor iff its nearest distance `d1` and second-nearest distance
`d2` (attained at distinct indices of `B`) satisfy `d1 < ratio * d2`; the
candidate list carries strictly increasing query indices, so it preserves the
iteration order of `A` with exactly one candidate per accepted query. -/
theorem nndr_matcher_correct (dist : α → β → ℚ) (A : List α) (B : List β) (ratio : ℚ) :
    List.Pairwise (· < ·) (List.map Prod.fst (matches2points_nndr dist A B ratio)) ∧
    (∀ i j : Nat, ((i, j) ∈ matches2points_nndr dist A B ratio ↔
      ∃ a d1 d2, A[i]? = some a ∧ best2 dist a B = some (j, d1, d2) ∧ d1 < ratio * d2)) ∧
    (∀ (a : α) (j1 : Nat) (d1 d2 : ℚ), best2 dist a B = some (j1, d1, d2) →
      (∃ b, B[j1]? = some b ∧ dist a b = d1) ∧
      (∀ (t : Nat) (b : β), B[t]? = some b → d1 ≤ dist a b) ∧
      (∃ j2 b, j2 ≠ j1 ∧ B[j2]? = some b ∧ dist a b = d2) ∧
      (∀ (t : Nat) (b : β), t ≠ j1 → B[t]? = some b → d2 ≤ dist a b)) := by
  refine ⟨nndr_go_pairwise A 0, ?_, fun a j1 d1 d2 h => best2_spec h⟩
  intro i j
  rw [matches2points_eq_filterMap, List.mem_filterMap]
  constructor
  · rintro ⟨t, ht, hstep⟩
    unfold nndr_step at hstep
    split at hstep
    · exact absurd hstep (by simp)
    · rename_i a hA
      split at hstep
      · exact absurd hstep (by simp)
      · rename_i j1 d1 d2 hb
        split at hstep
        · rename_i hacc
          simp only [Option.some.injEq, Prod.mk.injEq] at hstep
          obtain ⟨rfl, rfl⟩ := hstep
          exact ⟨a, d1, d2, hA, hb, hacc⟩
        · exact absurd hstep (by simp)
  · rintro ⟨a, d1, d2, hA, hb, hacc⟩
    refine ⟨i, List.mem_range.mpr (List.getElem?_eq_some.mp hA).1, ?_⟩
    unfold nndr_step
    simp [hA, hb, hacc]

theorem filterMap_length_mono {γ : Type u} {δ : Type v} :
    ∀ (l : List γ) (f g : γ → Option δ),
      (∀ x ∈ l, ∀ y, f x = some y → ∃ z, g x = some z) →
      (l.filterMap f).length ≤ (l.filterMap g).length := by
  intro l
  induction l with
  | nil => intro f g h; simp
  | cons x l ih =>
    intro f g h
    have htail : (l.filterMap f).length ≤ (l.filterMap g).length :=
      ih f g (fun y hy => h y (List.mem_cons_of_mem _ hy))
    cases hf : f x with
    | none =>
      rw [List.filterMap_cons_none hf]
      cases hg : g x with
      | none => rw [List.filterMap_cons_none hg]; exact htail
      | some z =>
        rw [List.filterMap_cons_some hg, List.length_cons]
        exact le_trans htail (Nat.le_succ _)
    | some y =>
      obtain ⟨z, hg⟩ := h x (List.mem_cons_self _ _) y hf
      rw [List.filterMap_cons_some hf, List.filterMap_cons_some hg,
        List.length_cons, List.length_cons]
      exact Nat.succ_le_succ htail

/-- C6: for fixed descriptor sets and a nonnegative distance metric, the
number of NNDR-accepted candidates is monotone non-decreasing in the ratio
threshold (equivalently: decreasing the ratio never accepts more). -/
theorem nndr_count_mono (dist : α → β → ℚ) (A : List α) (B : List β) {r1 r2 : ℚ}
    (hr : r1 ≤ r2) (hpos : ∀ (a : α) (b : β), 0 ≤ dist a b) :
    nndr_count dist A B r1 ≤ nndr_count dist A B r2 := by
  unfold nndr_count
  rw [matches2points_eq_filterMap, matches2points_eq_filterMap]
  apply filterMap_length_mono
  intro t ht y hy
  unfold nndr_step at hy ⊢
  split at hy
  · exact absurd hy (by simp)
  · rename_i a hA
    split at hy
    · exact absurd hy (by simp)
    · rename_i j1 d1 d2 hb
      split at hy
      · rename_i hacc
        have hd2 : 0 ≤ d2 := by
          obtain ⟨_, _, ⟨j2, b, hne, hB, hdb⟩, _⟩ := best2_spec hb
          rw [← hdb]
          exact hpos a b
        have hacc2 : d1 < r2 * d2 :=
          lt_of_lt_of_le hacc (mul_le_mul_of_nonneg_right hr hd2)
        exact ⟨(t, j1), by simp [hA, hb, hacc2]⟩
      · exact absurd hy (by simp)

/-- C6 witness: a concrete instantiation of `nndr_count_mono` with the
squared Euclidean metric and ratios `1/4 ≤ 3/4`. -/
theorem nndr_count_mono_witness :
    nndr_count l2sq [[(0 : ℚ), 0], [5, 5]] [[(0 : ℚ), 0], [3, 3]] (1/4) ≤
      nndr_count l2sq [[(0 : ℚ), 0], [5, 5]] [[(0 : ℚ), 0], [3, 3]] (3/4) :=
  nndr_count_mono l2sq _ _ (by norm_num) l2sq_nonneg

/-! ### RANSAC homography estimation entry

`compute_inliers_ransac` (called by `main` at line 124) lives in the library
part of the repository, not under `src/`; its contract is modelled from the
spec (§4.2, §7). The randomized trial loop (sampling, fitting, scoring) is
abstracted as the `core` parameter; the spec's precondition — fewer than 4
candidate correspondences is the `InsufficientCorrespondences` error, with no
homography computed — is modelled explicitly. -/

/-- Modelled from the spec: the error taxonomy of the homography estimator
(§7). -/
inductive RansacError : Type
  | insufficientCorrespondences : RansacError
  | degenerateGeometry : RansacError
deriving DecidableEq

/-- Modelled from the spec: `compute_inliers_ransac(candidates,
errorThreshold, useFund)`. `H` is the homography representation and `core`
the randomized RANSAC trial loop run when at least 4 candidates are
available; the estimator returns a result-or-error value rather than
terminating. -/
def compute_inliers_ransac {P H : Type} (core : List P → ℚ → Bool → Except RansacError (H × List P))
    (candidates : List P) (errorThreshold : ℚ) (useFund : Bool) :
    Except RansacError (H × List P) :=
  if candidates.length < 4 then Except.error RansacError.insufficientCorrespondences
  else core candidates errorThreshold useFund

/-- C7: with fewer than 4 candidate correspondences the homography estimator
surfaces `InsufficientCorrespondences` to the caller: it returns the error
value (never invoking the trial loop, hence computing no homography). -/
theorem ransac_insufficient {P H : Type}
    (core : List P → ℚ → Bool → Except RansacError (H × List P))
    (candidates : List P) (errorThreshold : ℚ) (useFund : Bool)
    (h : candidates.length < 4) :
    compute_inliers_ransac core candidates errorThreshold useFund =
      Except.error RansacError.insufficientCorrespondences ∧
    ∀ (hom : H) (inl : List P),
      compute_inliers_ransac core candidates errorThreshold useFund ≠ Except.ok (hom, inl) := by
  unfold compute_inliers_ransac
  rw [if_pos h]
  exact ⟨rfl, fun hom inl => by simp⟩

/-- C7 witness: three candidates trip the guard. -/
theorem ransac_insufficient_witness :
    compute_inliers_ransac
        (fun (_ : List ((ℚ × ℚ) × (ℚ × ℚ))) (_ : ℚ) (_ : Bool) =>
          (Except.error RansacError.degenerateGeometry : Except RansacError (Unit × List ((ℚ × ℚ) × (ℚ × ℚ)))))
        [((0, 0), (0, 0)), ((1, 0), (1, 0)), ((0, 1), (0, 1))] (5/2) false =
      Except.error RansacError.insufficientCorrespondences :=
  (ransac_insufficient _ _ _ _ (by decide)).1

/-! ### Inlier serialization: `save_inliers` (lines 131-166)

The point list holds the flattened inlier pairs: element `2k` is the pattern
(first image) point and `2k+1` the image (second image) point of the `k`-th
pair. Coordinates are rationals standing for the `cv::Point2f` floats; the
C cast `(int)(x + .5)` is integer truncation toward zero of `x + 1/2`. -/

/-- The C cast `(int)q`: truncation toward zero. -/
def truncTowardZero (q : ℚ) : ℤ :=
  if 0 ≤ q then ⌊q⌋ else ⌈q⌉

/-- An integer pixel location as written by `save_inliers`. -/
structure PointRec : Type where
  x : ℤ
  y : ℤ
deriving DecidableEq

/-- One output record of `save_inliers`: a pattern point and an image point. -/
structure InlierRec : Type where
  pattern_point : PointRec
  image_point : PointRec
deriving DecidableEq

/-- The records emitted by the `save_inliers` loop (lines 144-158): stride-2
walk over the flattened pairs, each coordinate rounded via `(int)(c + .5)`.
A trailing unpaired point (odd length, see C8) is out of the loop's defined
behaviour and is not represented. -/
def save_records : List (ℚ × ℚ) → List InlierRec
  | p :: q :: rest =>
    { pattern_point := { x := truncTowardZero (p.1 + 1/2), y := truncTowardZero (p.2 + 1/2) },
      image_point := { x := truncTowardZero (q.1 + 1/2), y := truncTowardZero (q.2 + 1/2) } } ::
      save_records rest
  | _ => []

/-- Structural JSON values, the shape of the text `save_inliers` emits. -/
inductive Json : Type
  | num : ℤ → Json
  | str : String → Json
  | arr : List Json → Json
  | obj : List (String × Json) → Json

/-- JSON for one integer point: an object with `x` and `y` fields. -/
def pointJson (p : PointRec) : Json :=
  Json.obj [("x", Json.num p.x), ("y", Json.num p.y)]

/-- JSON for one inlier record (lines 153-157). -/
def recJson (r : InlierRec) : Json :=
  Json.obj [("pattern_point", pointJson r.pattern_point),
            ("image_point", pointJson r.image_point)]

/-- The complete document `save_inliers` writes (lines 142-160): a top-level
object whose single `points` field is the array of inlier records. -/
def save_inliers_json (pts : List (ℚ × ℚ)) : Json :=
  Json.obj [("points", Json.arr ((save_records pts).map recJson))]

def assocLookup : List (String × Json) → String → Option Json
  | [], _ => none
  | (k, v) :: rest, key => if k = key then some v else assocLookup rest key

def lookupField : Json → String → Option Json
  | Json.obj fields, key => assocLookup fields key
  | _, _ => none

def parseCoord : Json → Option ℤ
  | Json.num n => some n
  | _ => none

def parsePointJson (j : Json) : Option PointRec :=
  match lookupField j "x", lookupField j "y" with
  | some jx, some jy =>
    match parseCoord jx, parseCoord jy with
    | some x, some y => some { x := x, y := y }
    | _, _ => none
  | _, _ => none

def parseRecJson (j : Json) : Option InlierRec :=
  match lookupField j "pattern_point", lookupField j "image_point" with
  | some jp, some ji =>
    match parsePointJson jp, parsePointJson ji with
    | some p, some q => some { pattern_point := p, image_point := q }
    | _, _ => none
  | _, _ => none

def parseRecList : List Json → Option (List InlierRec)
  | [] => some []
  | j :: js =>
    match parseRecJson j, parseRecList js with
    | some r, some rs => some (r :: rs)
    | _, _ => none

/-- Reading the persisted document back: the list of records under the
top-level `points` array. -/
def parseInlierDoc (j : Json) : Option (List InlierRec) :=
  match lookupField j "points" with
  | some (Json.arr elems) => parseRecList elems
  | _ => none

theorem parseRecJson_recJson (r : InlierRec) : parseRecJson (recJson r) = some r := rfl

theorem parseRecList_map_recJson : ∀ rs : List InlierRec,
    parseRecList (rs.map recJson) = some rs := by
  intro rs
  induction rs with
  | nil => rfl
  | cons r rs ih =>
    rw [List.map_cons]
    unfold parseRecList
    rw [parseRecJson_recJson, ih]

theorem save_records_length : ∀ pts : List (ℚ × ℚ), (save_records pts).length = pts.length / 2
  | [] => by simp [save_records]
  | [_] => by simp [save_records]
  | p :: q :: rest => by
    have ih := save_records_length rest
    simp only [save_records, List.length_cons, ih]
    omega

theorem save_records_getElem : ∀ (pts : List (ℚ × ℚ)) (k : Nat) (p q : ℚ × ℚ),
    pts[2 * k]? = some p → pts[2 * k + 1]? = some q →
    (save_records pts)[k]? = some
      { pattern_point := { x := truncTowardZero (p.1 + 1/2), y := truncTowardZero (p.2 + 1/2) },
        image_point := { x := truncTowardZero (q.1 + 1/2), y := truncTowardZero (q.2 + 1/2) } }
  | [], k, p, q, hp, _ => by simp at hp
  | [r], _, p, q, _, hq => by
    rw [List.getElem?_eq_none (by simp)] at hq
    exact absurd hq (by simp)
  | r :: s :: rest, k, p, q, hp, hq => by
    cases k with
    | zero =>
      simp only [Nat.mul_zero, List.getElem?_cons_zero, Option.some.injEq] at hp
      simp only [Nat.mul_zero, Nat.zero_add, List.getElem?_cons_succ,
        List.getElem?_cons_zero, Option.some.injEq] at hq
      subst hp
      subst hq
      simp [save_records]
    | succ k' =>
      have h2 : 2 * (k' + 1) = 2 * k' + 1 + 1 := by omega
      have h3 : 2 * (k' + 1) + 1 = 2 * k' + 1 + 1 + 1 := by omega
      rw [h2, List.getElem?_cons_succ, List.getElem?_cons_succ] at hp
      rw [h3, List.getElem?_cons_succ, List.getElem?_cons_succ] at hq
      simp only [save_records, List.getElem?_cons_succ]
      exact save_records_getElem rest k' p q hp hq

theorem parse_save_inliers (pts : List (ℚ × ℚ)) :
    parseInlierDoc (save_inliers_json pts) = some (save_records pts) := by
  unfold save_inliers_json parseInlierDoc lookupField assocLookup
  simp [parseRecList_map_recJson]

/-- C2: the persisted output of `save_inliers` is a top-level object whose
`points` array has one record per inlier pair (element `2k` / `2k+1` of the
flattened point vector), each holding a `pattern_point` and an `image_point`
whose integer coordinates are the float coordinates plus `1/2`, truncated
toward zero; parsing the document back reproduces exactly those integer
records. -/
theorem save_inliers_roundtrip (pts : List (ℚ × ℚ)) (hev : Even pts.length) :
    save_inliers_json pts =
      Json.obj [("points", Json.arr ((save_records pts).map recJson))] ∧
    (save_records pts).length = pts.length / 2 ∧
    (∀ (k : Nat) (p q : ℚ × ℚ), pts[2 * k]? = some p → pts[2 * k + 1]? = some q →
      (save_records pts)[k]? = some
        { pattern_point := { x := truncTowardZero (p.1 + 1/2), y := truncTowardZero (p.2 + 1/2) },
          image_point := { x := truncTowardZero (q.1 + 1/2), y := truncTowardZero (q.2 + 1/2) } }) ∧
    parseInlierDoc (save_inliers_json pts) = some (save_records pts) :=
  ⟨rfl, save_records_length pts,
    fun k p q hp hq => save_records_getElem pts k p q hp hq, parse_save_inliers pts⟩

/-- C2 witness: a concrete two-point (one-pair) list; note `-1/4 + 1/2 = 1/4`
truncates to `0` and `21/10 + 1/2 = 13/5` truncates to `2`. -/
theorem save_inliers_roundtrip_witness :
    ((save_records [((3 : ℚ)/2, -(1 : ℚ)/4), ((21 : ℚ)/10, (7 : ℚ))]).length =
      [((3 : ℚ)/2, -(1 : ℚ)/4), ((21 : ℚ)/10, (7 : ℚ))].length / 2) ∧
    (save_records [((3 : ℚ)/2, -(1 : ℚ)/4), ((21 : ℚ)/10, (7 : ℚ))])[0]? =
      some { pattern_point := { x := 2, y := 0 }, image_point := { x := 2, y := 7 } } ∧
    parseInlierDoc (save_inliers_json [((3 : ℚ)/2, -(1 : ℚ)/4), ((21 : ℚ)/10, (7 : ℚ))]) =
      some (save_records [((3 : ℚ)/2, -(1 : ℚ)/4), ((21 : ℚ)/10, (7 : ℚ))]) := by
  have h := save_inliers_roundtrip [((3 : ℚ)/2, -(1 : ℚ)/4), ((21 : ℚ)/10, (7 : ℚ))] ⟨1, rfl⟩
  refine ⟨h.2.1, ?_, h.2.2.2⟩
  have h0 := h.2.2.1 0 ((3 : ℚ)/2, -(1 : ℚ)/4) ((21 : ℚ)/10, (7 : ℚ)) rfl rfl
  rw [h0]
  norm_num [truncTowardZero]

/-- The driver function `save_inliers` (lines 131-166): `canOpen` models
whether the output stream opened; on failure it reports (returns `-1`) and
writes nothing, otherwise it writes the document and returns `0`. The point
list is received by value and never mutated. -/
def save_inliers (canOpen : Bool) (pts : List (ℚ × ℚ)) : Int × Option Json :=
  if !canOpen then (-1, none)
  else (0, some (save_inliers_json pts))

/-- The tail of `main` (lines 127-128): the return value of `save_inliers` is
discarded, `main` falls off its end (exit status 0), and the in-memory inlier
list is untouched. -/
def main_after_matching (canOpen : Bool) (inliers : List (ℚ × ℚ)) : Int × List (ℚ × ℚ) :=
  let _ := save_inliers canOpen inliers
  (0, inliers)

/-- C5: when the output file cannot be opened, `save_inliers` returns the
error indication `-1` to its caller and writes no content, and the pipeline
(`main`) still runs to completion with the in-memory inlier list intact. -/
theorem save_inliers_open_failure (pts : List (ℚ × ℚ)) :
    save_inliers false pts = (-1, none) ∧
    main_after_matching false pts = (0, pts) :=
  ⟨rfl, rfl⟩

/-- The element indexes read by the `save_inliers` loop (lines 144-148):
`for (i = 0; i < n; i += 2)` reads `ptpairs[i]` and `ptpairs[i+1]` where `n`
is the vector size. -/
def save_loop_idx (n : Nat) (i : Nat) : List Nat :=
  if h : i < n then i :: (i + 1) :: save_loop_idx n (i + 2) else []
termination_by n - i
decreasing_by omega

/-- All indexes the `save_inliers` loop reads on a vector of size `n`. -/
def save_inliers_accesses (n : Nat) : List Nat :=
  save_loop_idx n 0

theorem save_loop_idx_bound (n : Nat) : ∀ (fuel i j : Nat), n - i ≤ fuel →
    j ∈ save_loop_idx n i → j ≤ n ∧ (2 ∣ (n - i) → j < n) := by
  intro fuel
  induction fuel with
  | zero =>
    intro i j hf hj
    rw [save_loop_idx, dif_neg (by omega)] at hj
    simp at hj
  | succ fuel ih =>
    intro i j hf hj
    rw [save_loop_idx] at hj
    by_cases h : i < n
    · rw [dif_pos h] at hj
      rcases List.mem_cons.mp hj with rfl | hj'
      · exact ⟨by omega, fun _ => h⟩
      · rcases List.mem_cons.mp hj' with rfl | hj''
        · refine ⟨by omega, fun hdvd => ?_⟩
          omega
        · have hrec := ih (i + 2) j (by omega) hj''
          exact ⟨hrec.1, fun hdvd => hrec.2 (by omega)⟩
    · rw [dif_neg h] at hj
      simp at hj

theorem save_loop_idx_hits (n : Nat) : ∀ (fuel i : Nat), n - i ≤ fuel →
    i ≤ n → ¬ 2 ∣ (n - i) → n ∈ save_loop_idx n i := by
  intro fuel
  induction fuel with
  | zero =>
    intro i hf hi hodd
    exact absurd (by omega : (2 : Nat) ∣ (n - i)) hodd
  | succ fuel ih =>
    intro i hf hi hodd
    rw [save_loop_idx]
    by_cases h : i < n
    · rw [dif_pos h]
      by_cases hlast : i + 1 = n
      · rw [← hlast]
        exact List.mem_cons_of_mem _ (List.mem_cons_self _ _)
      · have hrec : n ∈ save_loop_idx n (i + 2) :=
          ih (i + 2) (by omega) (by omega) (by omega)
        exact List.mem_cons_of_mem _ (List.mem_cons_of_mem _ hrec)
    · exact absurd (by omega : (2 : Nat) ∣ (n - i)) hodd

/-- C8: the `save_inliers` loop walks the point vector with stride 2 reading
indexes `i` and `i+1`: on an even-size vector every read is in bounds, and on
an odd-size vector the final step reads index `n` — exactly one element past
the end (no read goes further). -/
theorem save_loop_access_safety (n : Nat) :
    (Even n → ∀ j ∈ save_inliers_accesses n, j < n) ∧
    (Odd n → n ∈ save_inliers_accesses n ∧ ∀ j ∈ save_inliers_accesses n, j ≤ n) := by
  constructor
  · intro hev j hj
    obtain ⟨r, hr⟩ := hev
    exact (save_loop_idx_bound n n 0 j (by omega) hj).2 (by omega)
  · intro hodd
    obtain ⟨r, hr⟩ := hodd
    constructor
    · exact save_loop_idx_hits n n 0 (by omega) (by omega) (by omega)
    · intro j hj
      exact (save_loop_idx_bound n n 0 j (by omega) hj).1

/-- C8 witness: size 4 stays in bounds; size 5 reads index 5. -/
theorem save_loop_access_safety_witness :
    (∀ j ∈ save_inliers_accesses 4, j < 4) ∧ 5 ∈ save_inliers_accesses 5 :=
  ⟨(save_loop_access_safety 4).1 ⟨2, rfl⟩, ((save_loop_access_safety 5).2 ⟨2, rfl⟩).1⟩

/-! ### Command-line parsing: `parse_input_options` (lines 169-305)

`argv` is modelled as the list of C strings `argv[0], ..., argv[argc-1]`
(program name included), so `argc = argv.length`. Option values are kept as
the raw argument strings: the C driver converts them with `atof`/`atoi`,
which never fail and never alter control flow, and no claim depends on the
converted numbers. The semantic library defaults of `AKAZEOptions` live in
the library header outside `src/`, so an unset field is `none`. -/

/-- The option fields `parse_input_options` can assign (value fields hold the
raw command-line string). -/
structure AKAZEOptions : Type where
  soffset : Option String := none
  omax : Option String := none
  dthreshold : Option String := none
  sderivatives : Option String := none
  nsublevels : Option String := none
  diffusivity : Option String := none
  descriptor : Option String := none
  descriptor_channels : Option String := none
  descriptor_size : Option String := none
  show_results : Option String := none
  verbosity : Bool := false
deriving DecidableEq

/-- The outputs `parse_input_options` assigns through its reference
parameters on success. -/
structure ParseResult : Type where
  options : AKAZEOptions
  img_path1 : String
  img_path2 : String
  inliers_path : String
deriving DecidableEq

/-- The option-walking loop of `parse_input_options` (lines 192-297),
threading the options structure and the inlier path. A value-taking flag in
final position is the `Error introducing input options!!` early return
(`none`); an unrecognized argument (with or without a `--` prefix) is
skipped. -/
def parseLoop : AKAZEOptions → String → List String → Option (AKAZEOptions × String)
  | opts, ipath, [] => some (opts, ipath)
  | opts, ipath, arg :: rest =>
    if arg = "--soffset" then
      match rest with
      | [] => none
      | v :: rest2 => parseLoop { opts with soffset := some v } ipath rest2
    else if arg = "--omax" then
      match rest with
      | [] => none
      | v :: rest2 => parseLoop { opts with omax := some v } ipath rest2
    else if arg = "--dthreshold" then
      match rest with
      | [] => none
      | v :: rest2 => parseLoop { opts with dthreshold := some v } ipath rest2
    else if arg = "--sderivatives" then
      match rest with
      | [] => none
      | v :: rest2 => parseLoop { opts with sderivatives := some v } ipath rest2
    else if arg = "--nsublevels" then
      match rest with
      | [] => none
      | v :: rest2 => parseLoop { opts with nsublevels := some v } ipath rest2
    else if arg = "--diffusivity" then
      match rest with
      | [] => none
      | v :: rest2 => parseLoop { opts with diffusivity := some v } ipath rest2
    else if arg = "--descriptor" then
      match rest with
      | [] => none
      | v :: rest2 => parseLoop { opts with descriptor := some v } ipath rest2
    else if arg = "--descriptor_channels" then
      match rest with
      | [] => none
      | v :: rest2 => parseLoop { opts with descriptor_channels := some v } ipath rest2
    else if arg = "--descriptor_size" then
      match rest with
      | [] => none
      | v :: rest2 => parseLoop { opts with descriptor_size := some v } ipath rest2
    else if arg = "--show_results" then
      match rest with
      | [] => none
      | v :: rest2 => parseLoop { opts with show_results := some v } ipath rest2
    else if arg = "--verbose" then
      parseLoop { opts with verbosity := true } ipath rest
    else if arg = "--output" then
      match rest with
      | [] => none
      | v :: rest2 => parseLoop opts v rest2
    else
      parseLoop opts ipath rest

/-- `parse_input_options` (lines 169-305). `none` is the `-1` error return.
The `argc = 2` invocation reads `argv[2]`, one slot past the supplied
arguments (see C9); since the C behaviour there is undefined (the slot holds
the null terminator and `img_path2` is built from a null pointer), the model
treats it as a failed parse. -/
def parse_input_options (argv : List String) : Option ParseResult :=
  if argv.length = 1 then none
  else if 2 ≤ argv.length then
    if argv[1]? = some "--help" then none
    else
      match argv[1]?, argv[2]? with
      | some p1, some p2 =>
        match parseLoop {} "./inliers.json" (argv.drop 3) with
        | none => none
        | some (opts, ipath) =>
          some { options := opts, img_path1 := p1, img_path2 := p2, inliers_path := ipath }
      | _, _ => none
  else none

/-- Whether the loop treats `arg` as a value-taking flag (advancing `i` past
the value). -/
def isValueFlag (arg : String) : Bool :=
  arg = "--soffset" || arg = "--omax" || arg = "--dthreshold" ||
  arg = "--sderivatives" || arg = "--nsublevels" || arg = "--diffusivity" ||
  arg = "--descriptor" || arg = "--descriptor_channels" ||
  arg = "--descriptor_size" || arg = "--show_results" || arg = "--output"

/-- The `argv` indexes the option loop reads, starting at index `i` over the
remaining arguments: a value-taking flag reads `i` and (after the `i >= argc`
guard) `i+1`; everything else reads only `i`. -/
def loopAccesses : Nat → List String → List Nat
  | _, [] => []
  | i, arg :: rest =>
    if isValueFlag arg then
      match rest with
      | [] => [i]
      | _ :: rest2 => i :: (i + 1) :: loopAccesses (i + 2) rest2
    else i :: loopAccesses (i + 1) rest

/-- The `argv` indexes `parse_input_options` reads: `argv[1]` for the
`--help` comparison (line 184), `argv[1]` and `argv[2]` for the image paths
(lines 189-190), then the option loop from index 3 (line 192). -/
def parse_accesses (argv : List String) : List Nat :=
  if argv.length = 1 then []
  else if 2 ≤ argv.length then
    if argv[1]? = some "--help" then [1]
    else 1 :: 1 :: 2 :: loopAccesses 3 (argv.drop 3)
  else []

/-- C9: whenever at least one argument is supplied (`argc >= 2`) and
`argv[1]` is not `--help`, `parse_input_options` reads `argv[2]`; with
exactly one non-help argument (`argc = 2`) index 2 equals `argc` and lies
beyond the supplied arguments. -/
theorem parse_reads_index_two (argv : List String) (h1 : 2 ≤ argv.length)
    (h2 : argv[1]? ≠ some "--help") :
    2 ∈ parse_accesses argv ∧ (argv.length = 2 → argv[2]? = none) := by
  constructor
  · unfold parse_accesses
    rw [if_neg (by omega), if_pos h1, if_neg h2]
    simp
  · intro hlen
    exact List.getElem?_eq_none (by omega)

/-- C9 witness: the invocation `./akaze_inliers img1.png`. -/
theorem parse_reads_index_two_witness :
    2 ∈ parse_accesses ["./akaze_inliers", "img1.png"] ∧
    (["./akaze_inliers", "img1.png"].length = 2 →
      ["./akaze_inliers", "img1.png"][2]? = none) :=
  parse_reads_index_two ["./akaze_inliers", "img1.png"] (by decide) (by decide)

/-- The literal reading of C10: the value following the last occurrence of
the string `"--output"` (with a following value) in the option region. -/
def lastOutputValue : List String → Option String
  | [] => none
  | [_] => none
  | a :: v :: rest =>
    match lastOutputValue (v :: rest) with
    | some w => some w
    | none => if a = "--output" then some v else none

/-- C10 counterexample: in
`./akaze_inliers img1.png img2.png --soffset --output 7` the `--output`
occurrence is consumed as the value of `--soffset`, so the parse is accepted
with the default path even though the last `--output` occurrence is followed
by the value `7`. -/
theorem parse_output_last_flag_cex :
    (parse_input_options
        ["./akaze_inliers", "img1.png", "img2.png", "--soffset", "--output", "7"]).map
      ParseResult.inliers_path = some "./inliers.json" ∧
    lastOutputValue
        (["./akaze_inliers", "img1.png", "img2.png", "--soffset", "--output", "7"].drop 3) =
      some "7" ∧
    ("./inliers.json" : String) ≠ "7" :=
  ⟨rfl, rfl, by decide⟩

/-- The inlier path produced by the option loop, tracked on its own: the
value after the last `--output` occurrence that the loop processes as a flag,
i.e. one not consumed as the value of a preceding value-taking flag. -/
def processedOutput : List String → Option String
  | [] => none
  | arg :: rest =>
    if arg = "--output" then
      match rest with
      | [] => none
      | v :: rest2 =>
        match processedOutput rest2 with
        | some w => some w
        | none => some v
    else if isValueFlag arg then
      match rest with
      | [] => none
      | _ :: rest2 => processedOutput rest2
    else processedOutput rest

theorem isValueFlag_eq_false {arg : String} (h1 : arg ≠ "--soffset") (h2 : arg ≠ "--omax")
    (h3 : arg ≠ "--dthreshold") (h4 : arg ≠ "--sderivatives") (h5 : arg ≠ "--nsublevels")
    (h6 : arg ≠ "--diffusivity") (h7 : arg ≠ "--descriptor")
    (h8 : arg ≠ "--descriptor_channels") (h9 : arg ≠ "--descriptor_size")
    (h10 : arg ≠ "--show_results") (h11 : arg ≠ "--output") :
    isValueFlag arg = false := by
  simp [isValueFlag, h1, h2, h3, h4, h5, h6, h7, h8, h9, h10, h11]

theorem processedOutput_skip {arg : String} (rest : List String) (hout : arg ≠ "--output")
    (hflag : isValueFlag arg = false) :
    processedOutput (arg :: rest) = processedOutput rest := by
  rw [processedOutput.eq_def]
  simp [hout, hflag]

theorem parseLoop_inliers_path : ∀ (n : Nat) (l : List String), l.length ≤ n →
    ∀ (opts : AKAZEOptions) (ipath : String) (opts' : AKAZEOptions) (ipath' : String),
      parseLoop opts ipath l = some (opts', ipath') →
      ipath' = (processedOutput l).getD ipath := by
  intro n
  induction n with
  | zero =>
    intro l hl
    have hnil : l = [] := List.eq_nil_of_length_eq_zero (by omega)
    subst hnil
    intro opts ipath o' i' h
    simp only [parseLoop, Option.some.injEq, Prod.mk.injEq] at h
    simp [processedOutput, h.2]
  | succ n ih =>
    intro l hl opts ipath o' i' h
    rcases l with _ | ⟨arg, rest⟩
    · simp only [parseLoop, Option.some.injEq, Prod.mk.injEq] at h
      simp [processedOutput, h.2]
    · simp only [List.length_cons] at hl
      by_cases h1 : arg = "--soffset"
      · subst h1
        rcases rest with _ | ⟨v, rest2⟩
        · rw [parseLoop.eq_def] at h
          simp at h
        · rw [parseLoop.eq_def] at h
          simp at h
          have hrec := ih rest2 (by simp only [List.length_cons] at hl; omega) _ _ _ _ h
          simpa [processedOutput, isValueFlag] using hrec
      by_cases h2 : arg = "--omax"
      · subst h2
        rcases rest with _ | ⟨v, rest2⟩
        · rw [parseLoop.eq_def] at h
          simp at h
        · rw [parseLoop.eq_def] at h
          simp at h
          have hrec := ih rest2 (by simp only [List.length_cons] at hl; omega) _ _ _ _ h
          simpa [processedOutput, isValueFlag] using hrec
      by_cases h3 : arg = "--dthreshold"
      · subst h3
        rcases rest with _ | ⟨v, rest2⟩
        · rw [parseLoop.eq_def] at h
          simp at h
        · rw [parseLoop.eq_def] at h
          simp at h
          have hrec := ih rest2 (by simp only [List.length_cons] at hl; omega) _ _ _ _ h
          simpa [processedOutput, isValueFlag] using hrec
      by_cases h4 : arg = "--sderivatives"
      · subst h4
        rcases rest with _ | ⟨v, rest2⟩
        · rw [parseLoop.eq_def] at h
          simp at h
        · rw [parseLoop.eq_def] at h
          simp at h
          have hrec := ih rest2 (by simp only [List.length_cons] at hl; omega) _ _ _ _ h
          simpa [processedOutput, isValueFlag] using hrec
      by_cases h5 : arg = "--nsublevels"
      · subst h5
        rcases rest with _ | ⟨v, rest2⟩
        · rw [parseLoop.eq_def] at h
          simp at h
        · rw [parseLoop.eq_def] at h
          simp at h
          have hrec := ih rest2 (by simp only [List.length_cons] at hl; omega) _ _ _ _ h
          simpa [processedOutput, isValueFlag] using hrec
      by_cases h6 : arg = "--diffusivity"
      · subst h6
        rcases rest with _ | ⟨v, rest2⟩
        · rw [parseLoop.eq_def] at h
          simp at h
        · rw [parseLoop.eq_def] at h
          simp at h
          have hrec := ih rest2 (by simp only [List.length_cons] at hl; omega) _ _ _ _ h
          simpa [processedOutput, isValueFlag] using hrec
      by_cases h7 : arg = "--descriptor"
      · subst h7
        rcases rest with _ | ⟨v, rest2⟩
        · rw [parseLoop.eq_def] at h
          simp at h
        · rw [parseLoop.eq_def] at h
          simp at h
          have hrec := ih rest2 (by simp only [List.length_cons] at hl; omega) _ _ _ _ h
          simpa [processedOutput, isValueFlag] using hrec
      by_cases h8 : arg = "--descriptor_channels"
      · subst h8
        rcases rest with _ | ⟨v, rest2⟩
        · rw [parseLoop.eq_def] at h
          simp at h
        · rw [parseLoop.eq_def] at h
          simp at h
          have hrec := ih rest2 (by simp only [List.length_cons] at hl; omega) _ _ _ _ h
          simpa [processedOutput, isValueFlag] using hrec
      by_cases h9 : arg = "--descriptor_size"
      · subst h9
        rcases rest with _ | ⟨v, rest2⟩
        · rw [parseLoop.eq_def] at h
          simp at h
        · rw [parseLoop.eq_def] at h
          simp at h
          have hrec := ih rest2 (by simp only [List.length_cons] at hl; omega) _ _ _ _ h
          simpa [processedOutput, isValueFlag] using hrec
      by_cases h10 : arg = "--show_results"
      · subst h10
        rcases rest with _ | ⟨v, rest2⟩
        · rw [parseLoop.eq_def] at h
          simp at h
        · rw [parseLoop.eq_def] at h
          simp at h
          have hrec := ih rest2 (by simp only [List.length_cons] at hl; omega) _ _ _ _ h
          simpa [processedOutput, isValueFlag] using hrec
      by_cases h11 : arg = "--verbose"
      · subst h11
        rw [parseLoop.eq_def] at h
        simp at h
        have hrec := ih rest (by omega) _ _ _ _ h
        rw [processedOutput_skip rest (by decide) (by decide)]
        exact hrec
      by_cases h12 : arg = "--output"
      · subst h12
        rcases rest with _ | ⟨v, rest2⟩
        · rw [parseLoop.eq_def] at h
          simp at h
        · rw [parseLoop.eq_def] at h
          simp at h
          have hrec := ih rest2 (by simp only [List.length_cons] at hl; omega) _ _ _ _ h
          rw [processedOutput.eq_def]
          simp only []
          rcases hpo : processedOutput rest2 with _ | w
          · rw [hpo] at hrec
            simpa using hrec
          · rw [hpo] at hrec
            simpa using hrec
      rw [parseLoop.eq_def] at h
      simp only [h1, h2, h3, h4, h5, h6, h7, h8, h9, h10, h11, h12, if_false,
        ite_false] at h
      have hrec := ih rest (by omega) _ _ _ _ h
      rw [processedOutput_skip rest h12
        (isValueFlag_eq_false h1 h2 h3 h4 h5 h6 h7 h8 h9 h10 h12)]
      exact hrec

/-- C10 (amended): for every accepted argument list, the inlier output path
is the value following the last `--output` occurrence that the option loop
processes as a flag — an occurrence consumed as the value of a preceding
value-taking flag does not count — and `./inliers.json` when there is none. -/
theorem parse_output_path (argv : List String) (r : ParseResult)
    (h : parse_input_options argv = some r) :
    r.inliers_path = (processedOutput (argv.drop 3)).getD "./inliers.json" := by
  unfold parse_input_options at h
  split at h
  · exact absurd h (by simp)
  · split at h
    · split at h
      · exact absurd h (by simp)
      · split at h
        · rename_i p1 p2 h1 h2
          split at h
          · exact absurd h (by simp)
          · rename_i opts ipath hloop
            simp only [Option.some.injEq] at h
            subst h
            exact parseLoop_inliers_path (argv.drop 3).length (argv.drop 3) (le_refl _)
              {} "./inliers.json" opts ipath hloop
        · exact absurd h (by simp)
    · exact absurd h (by simp)

/-- C10 witness: `--output out.json` is processed as a flag and sets the
path. -/
theorem parse_output_path_witness :
    ({ options := {}, img_path1 := "img1.png", img_path2 := "img2.png",
        inliers_path := "out.json" } : ParseResult).inliers_path =
      (processedOutput (["./akaze_inliers", "img1.png", "img2.png", "--output",
        "out.json"].drop 3)).getD "./inliers.json" :=
  parse_output_path ["./akaze_inliers", "img1.png", "img2.png", "--output", "out.json"]
    { options := {}, img_path1 := "img1.png", img_path2 := "img2.png",
      inliers_path := "out.json" } (by decide)

/-! ### Fixed matching configuration (lines 33-34 and 111-124)

`main` passes the module-level constants `DRATIO` and `MIN_H_ERROR` and a
hard-coded `false` (forward-only error) to the matching stage; nothing in
`parse_input_options` can change them, and no refinement flag or random seed
exists in the driver. -/

/-- `const float DRATIO = 0.80f` (line 34). -/
def DRATIO : ℚ := 4/5

/-- `const float MIN_H_ERROR = 2.50f` (line 33). -/
def MIN_H_ERROR : ℚ := 5/2

/-- The values `main` hands to the matching stage: the NNDR ratio (line 122),
the RANSAC error threshold and the use-fundamental-matrix flag (line 124). -/
structure MatchStageConfig : Type where
  nndr_ratio : ℚ
  ransac_error : ℚ
  use_fund : Bool
deriving DecidableEq

/-- The matching-stage configuration `main` uses for a given command line
(`none` when `parse_input_options` rejects it and `main` exits early):
`matches2points_nndr(..., DRATIO)` then
`compute_inliers_ransac(..., MIN_H_ERROR, false)`, independent of `argv`. -/
def mainMatchConfig (argv : List String) : Option MatchStageConfig :=
  (parse_input_options argv).map
    (fun _ => { nndr_ratio := DRATIO, ransac_error := MIN_H_ERROR, use_fund := false })

/-- C3 counterexample: even an argument list that asks for a different
ratio, threshold, symmetric error, refinement and seed leaves the matching
stage at the compiled-in constants (the flags are reported as unknown
commands and skipped) — the ratio, threshold and error-mode are not run-time
configuration, and no refinement flag or seed exists. -/
theorem config_not_runtime_cex :
    mainMatchConfig ["./akaze_inliers", "img1.png", "img2.png", "--ratio", "0.50",
        "--error", "1.00", "--symmetric", "1", "--refine", "1", "--seed", "42"] =
      some { nndr_ratio := DRATIO, ransac_error := MIN_H_ERROR, use_fund := false } ∧
    DRATIO ≠ (1 : ℚ)/2 := by
  constructor
  · rfl
  · norm_num [ DRATIO]

/-- C3 (amended): the NNDR ratio (0.80) and RANSAC reprojection threshold
(2.50) are module-level constants and the symmetric-error selector is the
hard-coded `false` at the call site; for every accepted argument list the
matching stage runs with exactly these values, and no refinement flag or
random seed is consumed anywhere in the driver. -/
theorem config_constants (argv : List String) (c : MatchStageConfig)
    (h : mainMatchConfig argv = some c) :
    c = { nndr_ratio := DRATIO, ransac_error := MIN_H_ERROR, use_fund := false } := by
  unfold mainMatchConfig at h
  cases hp : parse_input_options argv with
  | none => rw [hp] at h; simp at h
  | some r =>
    rw [hp] at h
    simp only [Option.map_some', Option.some.injEq] at h
    exact h.symm

/-- C3 witness: the plain invocation is accepted and uses the constants. -/
theorem config_constants_witness :
    ({ nndr_ratio := DRATIO, ransac_error := MIN_H_ERROR, use_fund := false } :
        MatchStageConfig) =
      { nndr_ratio := DRATIO, ransac_error := MIN_H_ERROR, use_fund := false } :=
  config_constants ["./akaze_inliers", "img1.png", "img2.png"]
    { nndr_ratio := DRATIO, ransac_error := MIN_H_ERROR, use_fund := false } (by rfl)

/-! ### Matcher metric dispatch (lines 113-119) -/

/-- The two brute-force matchers `main` creates: `BruteForce` (L2) and
`BruteForce-Hamming`. -/
inductive DescriptorMetric : Type
  | l2 : DescriptorMetric
  | hamming : DescriptorMetric
deriving DecidableEq

/-- Modelled from the spec: the binary-descriptor threshold of the library's
`DESCRIPTOR_TYPE` enum (the header lives outside `src/`; `SURF_UPRIGHT`,
`SURF`, `MSURF_UPRIGHT`, `MSURF` precede it). The dispatch theorem below
holds for any value. -/
def MLDB_UPRIGHT : Nat := 4

/-- The matcher selection of `main` (lines 116-119):
`options.descriptor < MLDB_UPRIGHT` picks the L2 matcher, otherwise the
Hamming matcher. -/
def chooseMatcher (descriptor : Nat) : DescriptorMetric :=
  if descriptor < MLDB_UPRIGHT then DescriptorMetric.l2 else DescriptorMetric.hamming

/-- C4: the matching metric is Euclidean (L2 brute force) iff the configured
descriptor type is strictly below `MLDB_UPRIGHT`, Hamming otherwise, and
never both: exactly one of the two matchers runs. -/
theorem matcher_dispatch (d : Nat) :
    (chooseMatcher d = DescriptorMetric.l2 ↔ d < MLDB_UPRIGHT) ∧
    (chooseMatcher d = DescriptorMetric.hamming ↔ ¬d < MLDB_UPRIGHT) ∧
    ¬(chooseMatcher d = DescriptorMetric.l2 ∧ chooseMatcher d = DescriptorMetric.hamming) := by
  unfold chooseMatcher
  by_cases h : d < MLDB_UPRIGHT <;> simp [h]

end AkazeInliers
